import Mathlib

/-!
Verification development for the de_tweets_challenge aggregation engine.

The repository computes three ranked aggregates over an NDJSON corpus of
social-media posts — (1) the N dates with the most posts, each paired with the
most prolific author on that date, (2) the N most frequent pictographic
symbols occurring in post text, (3) the N most frequently mentioned handles —
under two execution strategies: a streaming, record-at-a-time strategy
(`qX_memory`, ijson-based) and a bulk, columnar strategy (`qX_time`,
Polars-based).  The repository snapshot ships only the notebook
(`src/challenge.ipynb`, documentation, call sites and captured outputs) and a
benchmark driver script; the implementation modules (`q1_memory.py`,
`backend/*.py`, ...) are not part of the snapshot, so the engine below is
modelled from the specification, with the notebook's prose and captured
outputs as corroborating evidence.
-/

namespace DETweets

/-- Modelled from the spec: one element of a record's `mentions` list.  The
source stores richer per-mention objects (`mentionedUsers` entries carry a
`username` plus further fields such as a display name); only the `username`
field is ever read by the engine. -/
structure Mention where
  username : String
  displayname : Option String := none
deriving DecidableEq, Repr

/-- Modelled from the spec: a decoded post record.  Fields used by the
engine: `timestamp` (ISO-8601 date-time string, truncated to the calendar
date for grouping), `author` (handle string), `text` (free-form, may be
absent), `mentions` (list of mention objects, may be absent). -/
structure Record where
  timestamp : Option String := none
  author : Option String := none
  text : Option String := none
  mentions : Option (List Mention) := none
deriving DecidableEq, Repr

/-- Modelled from the spec: one line of the NDJSON file; `none` stands for a
line that fails to parse as structured data (`MalformedRecord`, recoverable:
the line is skipped, the scan continues). -/
abbrev NDJSONLine := Option Record

/-- Modelled from the spec: the decoded contents of an NDJSON file, one entry
per line.  A zero-byte file is the empty list. -/
abbrev NDJSONFile := List NDJSONLine

/-- Modelled from the spec: the fatal error taxonomy of §7.  Recoverable
`MalformedRecord` events are absorbed at the aggregator boundary, so only the
fatal cases appear in results. -/
inductive EngineError where
  | sourceNotFound
  | invalidParameter
deriving DecidableEq, Repr

/-- Modelled from the spec: decoding a file skips malformed lines and keeps
the records, in source order. -/
def recordsOf (f : NDJSONFile) : List Record :=
  f.filterMap id

/-- Modelled from the spec: validity of a ten-character calendar-date shape
`YYYY-MM-DD`, the shape accepted by `date.fromisoformat(date_str[:10])` in
the notebook's description of the streaming strategy. -/
def validDateChars (l : List Char) : Bool :=
  match l with
  | [y1, y2, y3, y4, s1, m1, m2, s2, d1, d2] =>
      y1.isDigit && y2.isDigit && y3.isDigit && y4.isDigit &&
      s1 = '-' && m1.isDigit && m2.isDigit && s2 = '-' &&
      d1.isDigit && d2.isDigit
  | _ => false

/-- Modelled from the spec: parse a timestamp string to its calendar date by
truncating to the first ten characters; `none` when the result is not a
well-formed date (the record is then skipped by the date-activity
aggregator). -/
def parseDate (s : String) : Option String :=
  let t := s.data.take 10
  if validDateChars t then some (String.mk t) else none

/-- Modelled from the spec: the date-activity field extractor.  A record
contributes to the date-activity aggregate exactly when its timestamp parses
to a calendar date and its author is present. -/
def q1Key (r : Record) : Option (String × String) :=
  match r.timestamp, r.author with
  | some ts, some a => (parseDate ts).map (fun d => (d, a))
  | _, _ => none

/-- Modelled from the spec: pinned approximation of the Unicode
Extended_Pictographic classification (the spec leaves the exact Unicode
version open and requires pinning one); this covers the principal emoji
blocks: Miscellaneous Symbols and Pictographs, Emoticons, Transport, Symbols
and Pictographs Extended-A, Supplemental Symbols, regional indicators, and
the Miscellaneous Symbols / Dingbats BMP ranges. -/
def isPictographic (c : Char) : Bool :=
  let n := c.toNat
  (0x1F300 ≤ n && n ≤ 0x1F5FF) || (0x1F600 ≤ n && n ≤ 0x1F64F) ||
  (0x1F680 ≤ n && n ≤ 0x1F6FF) || (0x1F900 ≤ n && n ≤ 0x1F9FF) ||
  (0x1FA70 ≤ n && n ≤ 0x1FAFF) || (0x2600 ≤ n && n ≤ 0x27BF) ||
  (0x1F1E6 ≤ n && n ≤ 0x1F1FF)

/-- Modelled from the spec: the emoji field extractor — decompose a record's
text into the ordered sequence of pictographic code points, one single-symbol
string per occurrence.  A missing text behaves as the empty string. -/
def symbolsOf (r : Record) : List String :=
  ((r.text.getD "").data.filter isPictographic).map (fun c => String.mk [c])

/-- Modelled from the spec: the mention field extractor — flatten the
record's `mentions` list reading only the `username` field of each element.
An absent list behaves as the empty list. -/
def mentionsOf (r : Record) : List String :=
  (r.mentions.getD []).map Mention.username

/-- Modelled from the spec: the date column of the projected (date, author)
pairs — the bulk strategy's schema projection for the date-activity
aggregate. -/
def q1Pairs (rs : List Record) : List (String × String) :=
  rs.filterMap q1Key

/-- Modelled from the spec: the dates column (one entry per record valid for
the date-activity aggregate). -/
def datesCol (rs : List Record) : List String :=
  (q1Pairs rs).map Prod.fst

/-- Modelled from the spec: the authors appearing on a given date (bulk
strategy: filter the pair column by date, project the author). -/
def authorsOn (d : String) (rs : List Record) : List String :=
  ((q1Pairs rs).filter (fun p => decide (p.1 = d))).map Prod.snd

/-- Modelled from the spec: the exploded symbols column across all records
(bulk strategy: vectorized pattern extraction then flatten). -/
def symsCol (rs : List Record) : List String :=
  rs.flatMap symbolsOf

/-- Modelled from the spec: the exploded mentioned-handles column across all
records (bulk strategy: explode the mentions column, read usernames). -/
def mentsCol (rs : List Record) : List String :=
  rs.flatMap mentionsOf

/-- Modelled from the spec: one streaming `Counter` increment — bump the
count of key `k` in an association-list count mapping, inserting the key with
count 1 on first sight. -/
def bump (m : List (String × Nat)) (k : String) : List (String × Nat) :=
  match m with
  | [] => [(k, 1)]
  | (k₀, c) :: rest =>
      if k₀ = k then (k₀, c + 1) :: rest else (k₀, c) :: bump rest k

/-- Modelled from the spec: the streaming strategy's count mapping — a
`Counter` fed one key at a time. -/
def streamCounts (ks : List String) : List (String × Nat) :=
  ks.foldl bump []

/-- Modelled from the spec: the bulk strategy's count mapping — group the
projected key column by key and count each group set-at-a-time. -/
def bulkCounts (ks : List String) : List (String × Nat) :=
  ks.dedup.map (fun k => (k, ks.count k))

/-- Modelled from the spec: executable lexicographic comparison on code-point
sequences, the pinned deterministic tie-break order (§9 directs implementers
to pick one deterministic total order such as lexicographic on the key). -/
def lexLe : List Char → List Char → Bool
  | [], _ => true
  | _ :: _, [] => false
  | a :: as, b :: bs =>
      if a.toNat < b.toNat then true
      else if b.toNat < a.toNat then false
      else lexLe as bs

/-- Modelled from the spec: the pinned deterministic order on keys. -/
def strLe (a b : String) : Bool :=
  lexLe a.data b.data

/-- Modelled from the spec: the ranking order on (key, count) entries —
count descending, ties broken by the pinned deterministic key order, applied
identically across strategies and aggregates. -/
def resLe (a b : String × Nat) : Prop :=
  (decide (b.2 < a.2) || (decide (a.2 = b.2) && strLe a.1 b.1)) = true

instance : DecidableRel resLe :=
  fun a b =>
    inferInstanceAs
      (Decidable ((decide (b.2 < a.2) || (decide (a.2 = b.2) && strLe a.1 b.1)) = true))

/-- Modelled from the spec: the Top-K Selector — sort the finished count
mapping by count descending with the deterministic tie-break and return the
first `n` entries. -/
def topK (m : List (String × Nat)) (n : Nat) : List (String × Nat) :=
  (List.insertionSort resLe m).take n

/-- Modelled from the spec: the representative author of a date, read off a
finished per-date author count mapping — the top-1 entry of the selector, or
the empty handle on an empty mapping (never reached for dates with a non-zero
total). -/
def repAuthor (inner : List (String × Nat)) : String :=
  match topK inner 1 with
  | e :: _ => e.1
  | [] => ""

/-- Modelled from the spec: the streaming Date-Activity Aggregator state — a
global per-date total `Counter` plus a per-date dictionary of per-author
`Counter`s. -/
structure DateAgg where
  totals : List (String × Nat)
  byAuthor : List (String × List (String × Nat))

/-- Modelled from the spec: look up one date's author sub-count mapping. -/
def innerOf (m : List (String × List (String × Nat))) (d : String) : List (String × Nat) :=
  (m.lookup d).getD []

/-- Modelled from the spec: bump the (date, author) sub-count in the nested
per-date dictionary of author counters. -/
def bumpNested (m : List (String × List (String × Nat))) (d a : String) :
    List (String × List (String × Nat)) :=
  match m with
  | [] => [(d, [(a, 1)])]
  | (d₀, inner) :: rest =>
      if d₀ = d then (d₀, bump inner a) :: rest
      else (d₀, inner) :: bumpNested rest d a

/-- Modelled from the spec: ingest one record into the streaming
date-activity state; records with a missing or unparsable timestamp or a
missing author are skipped. -/
def ingestQ1 (st : DateAgg) (r : Record) : DateAgg :=
  match q1Key r with
  | some (d, a) => ⟨bump st.totals d, bumpNested st.byAuthor d a⟩
  | none => st

/-- Modelled from the spec: run the streaming date-activity scan over the
whole record stream. -/
def q1StreamState (rs : List Record) : DateAgg :=
  rs.foldl ingestQ1 ⟨[], []⟩

/-- Modelled from the spec: streaming date-activity aggregate — rank dates by
total descending and pair each with its representative author. -/
def q1MemoryRun (rs : List Record) (n : Nat) : List (String × String) :=
  (topK (q1StreamState rs).totals n).map
    (fun e => (e.1, repAuthor (innerOf (q1StreamState rs).byAuthor e.1)))

/-- Modelled from the spec: bulk date-activity aggregate — group the
projected columns set-at-a-time, rank dates by total descending, and pair
each with the top author of its filtered author column. -/
def q1TimeRun (rs : List Record) (n : Nat) : List (String × String) :=
  (topK (bulkCounts (datesCol rs)) n).map
    (fun e => (e.1, repAuthor (bulkCounts (authorsOn e.1 rs))))

/-- Modelled from the spec: the streaming emoji scan — one global symbol
`Counter` fed record by record. -/
def q2StreamState (rs : List Record) : List (String × Nat) :=
  rs.foldl (fun st r => (symbolsOf r).foldl bump st) []

/-- Modelled from the spec: streaming emoji aggregate — one global symbol
`Counter` fed record by record, then top-N. -/
def q2MemoryRun (rs : List Record) (n : Nat) : List (String × Nat) :=
  topK (q2StreamState rs) n

/-- Modelled from the spec: bulk emoji aggregate — flatten the extracted
symbol column, group and count, then top-N. -/
def q2TimeRun (rs : List Record) (n : Nat) : List (String × Nat) :=
  topK (bulkCounts (symsCol rs)) n

/-- Modelled from the spec: the streaming mention scan — one global handle
`Counter` fed record by record. -/
def q3StreamState (rs : List Record) : List (String × Nat) :=
  rs.foldl (fun st r => (mentionsOf r).foldl bump st) []

/-- Modelled from the spec: streaming mention aggregate — one global handle
`Counter` fed record by record, then top-N. -/
def q3MemoryRun (rs : List Record) (n : Nat) : List (String × Nat) :=
  topK (q3StreamState rs) n

/-- Modelled from the spec: bulk mention aggregate — explode the mentions
column, group and count, then top-N. -/
def q3TimeRun (rs : List Record) (n : Nat) : List (String × Nat) :=
  topK (bulkCounts (mentsCol rs)) n

/-- Modelled from the spec: the filesystem at the input path — `none` when
the path does not exist (`SourceNotFound`), otherwise the decoded NDJSON
lines. -/
abbrev SourceInput := Option NDJSONFile

/-- Modelled from the spec: public streaming date-activity function, taking
(file path, N): N ≤ 0 is rejected as `InvalidParameter` before the scan
starts; a missing path is `SourceNotFound`. -/
def q1_memory (input : SourceInput) (n : Int) :
    Except EngineError (List (String × String)) :=
  if n ≤ 0 then .error .invalidParameter
  else
    match input with
    | none => .error .sourceNotFound
    | some f => .ok (q1MemoryRun (recordsOf f) n.toNat)

/-- Modelled from the spec: public bulk date-activity function. -/
def q1_time (input : SourceInput) (n : Int) :
    Except EngineError (List (String × String)) :=
  if n ≤ 0 then .error .invalidParameter
  else
    match input with
    | none => .error .sourceNotFound
    | some f => .ok (q1TimeRun (recordsOf f) n.toNat)

/-- Modelled from the spec: public streaming emoji function. -/
def q2_memory (input : SourceInput) (n : Int) :
    Except EngineError (List (String × Nat)) :=
  if n ≤ 0 then .error .invalidParameter
  else
    match input with
    | none => .error .sourceNotFound
    | some f => .ok (q2MemoryRun (recordsOf f) n.toNat)

/-- Modelled from the spec: public bulk emoji function. -/
def q2_time (input : SourceInput) (n : Int) :
    Except EngineError (List (String × Nat)) :=
  if n ≤ 0 then .error .invalidParameter
  else
    match input with
    | none => .error .sourceNotFound
    | some f => .ok (q2TimeRun (recordsOf f) n.toNat)

/-- Modelled from the spec: public streaming mention function. -/
def q3_memory (input : SourceInput) (n : Int) :
    Except EngineError (List (String × Nat)) :=
  if n ≤ 0 then .error .invalidParameter
  else
    match input with
    | none => .error .sourceNotFound
    | some f => .ok (q3MemoryRun (recordsOf f) n.toNat)

/-- Modelled from the spec: public bulk mention function. -/
def q3_time (input : SourceInput) (n : Int) :
    Except EngineError (List (String × Nat)) :=
  if n ≤ 0 then .error .invalidParameter
  else
    match input with
    | none => .error .sourceNotFound
    | some f => .ok (q3TimeRun (recordsOf f) n.toNat)

/-- Modelled from the spec: an execution strategy selector. -/
inductive Strategy where
  | memory
  | time
deriving DecidableEq, Repr

/-- Modelled from the spec: the date-activity aggregate as one
strategy-indexed function — both strategies share one signature, so call
sites swap strategies by changing only the selector. -/
def q1Run : Strategy → SourceInput → Int → Except EngineError (List (String × String))
  | .memory => q1_memory
  | .time => q1_time

/-- Modelled from the spec: the emoji aggregate as one strategy-indexed
function. -/
def q2Run : Strategy → SourceInput → Int → Except EngineError (List (String × Nat))
  | .memory => q2_memory
  | .time => q2_time

/-- Modelled from the spec: the mention aggregate as one strategy-indexed
function. -/
def q3Run : Strategy → SourceInput → Int → Except EngineError (List (String × Nat))
  | .memory => q3_memory
  | .time => q3_time

/-- Count of a key in a finished count mapping (0 when absent). -/
def cnt (m : List (String × Nat)) (k : String) : Nat :=
  (m.lookup k).getD 0

/-- The keys column of a count mapping. -/
def keysOf (m : List (String × Nat)) : List String :=
  m.map Prod.fst

/-- The grand total of a count mapping. -/
def sumCounts (m : List (String × Nat)) : Nat :=
  (m.map Prod.snd).sum

/-- The date of a record, when its timestamp is present and parsable. -/
def dateOf (r : Record) : Option String :=
  r.timestamp.bind parseDate

/-- The number of input records bearing a given date (author presence not
required). -/
def bearingCount (rs : List Record) (d : String) : Nat :=
  rs.countP (fun r => decide (dateOf r = some d))

/-- The finished date-activity total of a date at end-of-stream. -/
def dateTotal (rs : List Record) (d : String) : Nat :=
  cnt (q1StreamState rs).totals d

/-- The finished (date, author) sub-count at end-of-stream. -/
def authorSub (rs : List Record) (d a : String) : Nat :=
  cnt (innerOf (q1StreamState rs).byAuthor d) a

/-- The number of distinct keys of a count mapping that hold a non-zero
count. -/
def distinctNonzeroKeys (m : List (String × Nat)) : Nat :=
  ((m.filter (fun e => decide (0 < e.2))).map Prod.fst).dedup.length

/-- A record holding only a timestamp and an author, for concrete
scenarios. -/
def recTA (ts a : String) : Record :=
  { timestamp := some ts, author := some a }

/-- A record holding only a text, for concrete scenarios. -/
def recText (s : String) : Record :=
  { text := some s }

/-- A record holding only a mentions list of plain handles, for concrete
scenarios. -/
def recMent (l : List String) : Record :=
  { mentions := some (l.map (fun u => { username := u })) }

/-- The spec's date-activity concrete scenario: three records dated
2021-02-12 with authors A (twice) and B (once). -/
def fileQ1Scenario : NDJSONFile :=
  [some (recTA "2021-02-12T10:01:00+00:00" "A"),
   some (recTA "2021-02-12T11:02:03+00:00" "A"),
   some (recTA "2021-02-12T12:00:00+00:00" "B")]

/-- A one-record variant of the date-activity scenario: a single post by A
dated 2021-02-12. -/
def fileQ1Single : NDJSONFile :=
  [some (recTA "2021-02-12T10:01:00+00:00" "A")]

/-- The spec's emoji concrete scenario: post texts "🙏 good", "🙏🙏", "😂". -/
def fileQ2Scenario : NDJSONFile :=
  [some (recText "🙏 good"), some (recText "🙏🙏"), some (recText "😂")]

/-- The spec's mention concrete scenario: mention lists ["x","y"], ["x"],
[]. -/
def fileQ3Scenario : NDJSONFile :=
  [some (recMent ["x", "y"]), some (recMent ["x"]), some (recMent [])]

/-- A Char is determined by its code point. -/
theorem char_toNat_injective {a b : Char} (h : a.toNat = b.toNat) : a = b := by
  apply Char.ext
  simp only [Char.toNat] at h
  exact UInt32.toNat.inj h

/-- The pinned lexicographic order is total. -/
theorem lexLe_total (x : List Char) : ∀ y, lexLe x y = true ∨ lexLe y x = true := by
  induction x with
  | nil => intro y; left; rfl
  | cons a as ih =>
    intro y
    cases y with
    | nil => right; rfl
    | cons b bs =>
      by_cases hab : a.toNat < b.toNat
      · left; unfold lexLe; rw [if_pos hab]
      · by_cases hba : b.toNat < a.toNat
        · right; unfold lexLe; rw [if_pos hba]
        · rcases ih bs with h | h
          · left; unfold lexLe; rw [if_neg hab, if_neg hba]; exact h
          · right; unfold lexLe; rw [if_neg hba, if_neg hab]; exact h

/-- The pinned lexicographic order is transitive. -/
theorem lexLe_trans (x : List Char) :
    ∀ y z, lexLe x y = true → lexLe y z = true → lexLe x z = true := by
  induction x with
  | nil => intro y z _ _; rfl
  | cons a as ih =>
    intro y z hxy hyz
    cases y with
    | nil => simp [lexLe] at hxy
    | cons b bs =>
      cases z with
      | nil => simp [lexLe] at hyz
      | cons c cs =>
        unfold lexLe at hxy hyz ⊢
        by_cases hab : a.toNat < b.toNat
        · by_cases hbc : b.toNat < c.toNat
          · rw [if_pos (show a.toNat < c.toNat by omega)]
          · rw [if_neg hbc] at hyz
            by_cases hcb : c.toNat < b.toNat
            · rw [if_pos hcb] at hyz; exact absurd hyz (by simp)
            · rw [if_pos (show a.toNat < c.toNat by omega)]
        · rw [if_neg hab] at hxy
          by_cases hba : b.toNat < a.toNat
          · rw [if_pos hba] at hxy; exact absurd hxy (by simp)
          · rw [if_neg hba] at hxy
            by_cases hbc : b.toNat < c.toNat
            · rw [if_pos (show a.toNat < c.toNat by omega)]
            · rw [if_neg hbc] at hyz
              by_cases hcb : c.toNat < b.toNat
              · rw [if_pos hcb] at hyz; exact absurd hyz (by simp)
              · rw [if_neg hcb] at hyz
                rw [if_neg (show ¬a.toNat < c.toNat by omega),
                    if_neg (show ¬c.toNat < a.toNat by omega)]
                exact ih bs cs hxy hyz

/-- The pinned lexicographic order is antisymmetric. -/
theorem lexLe_antisymm (x : List Char) :
    ∀ y, lexLe x y = true → lexLe y x = true → x = y := by
  induction x with
  | nil =>
    intro y _ hyx
    cases y with
    | nil => rfl
    | cons b bs => simp [lexLe] at hyx
  | cons a as ih =>
    intro y hxy hyx
    cases y with
    | nil => simp [lexLe] at hxy
    | cons b bs =>
      unfold lexLe at hxy hyx
      by_cases hab : a.toNat < b.toNat
      · rw [if_neg (show ¬b.toNat < a.toNat by omega), if_pos hab] at hyx
        exact absurd hyx (by simp)
      · by_cases hba : b.toNat < a.toNat
        · rw [if_neg hab, if_pos hba] at hxy; exact absurd hxy (by simp)
        · rw [if_neg hab, if_neg hba] at hxy
          rw [if_neg hba, if_neg hab] at hyx
          have hc : a = b := char_toNat_injective (by omega)
          rw [hc, ih bs hxy hyx]

/-- The pinned key order is total. -/
theorem strLe_total (a b : String) : strLe a b = true ∨ strLe b a = true :=
  lexLe_total a.data b.data

/-- The pinned key order is transitive. -/
theorem strLe_trans {a b c : String} (h₁ : strLe a b = true) (h₂ : strLe b c = true) :
    strLe a c = true :=
  lexLe_trans a.data b.data c.data h₁ h₂

/-- The pinned key order is antisymmetric. -/
theorem strLe_antisymm {a b : String} (h₁ : strLe a b = true) (h₂ : strLe b a = true) :
    a = b :=
  String.ext (lexLe_antisymm a.data b.data h₁ h₂)

/-- Unfold the ranking order into its propositional form. -/
theorem resLe_iff (a b : String × Nat) :
    resLe a b ↔ b.2 < a.2 ∨ (a.2 = b.2 ∧ strLe a.1 b.1 = true) := by
  simp [resLe, Bool.or_eq_true, Bool.and_eq_true, decide_eq_true_eq]

/-- The ranking order is total. -/
theorem resLe_total (a b : String × Nat) : resLe a b ∨ resLe b a := by
  rw [resLe_iff, resLe_iff]
  rcases Nat.lt_trichotomy a.2 b.2 with h | h | h
  · right; left; exact h
  · rcases strLe_total a.1 b.1 with hs | hs
    · left; right; exact ⟨h, hs⟩
    · right; right; exact ⟨h.symm, hs⟩
  · left; left; exact h

/-- The ranking order is transitive. -/
theorem resLe_trans {a b c : String × Nat} (h₁ : resLe a b) (h₂ : resLe b c) :
    resLe a c := by
  rw [resLe_iff] at h₁ h₂ ⊢
  rcases h₁ with h₁ | ⟨h₁e, h₁s⟩
  · rcases h₂ with h₂ | ⟨h₂e, h₂s⟩
    · left; omega
    · left; omega
  · rcases h₂ with h₂ | ⟨h₂e, h₂s⟩
    · left; omega
    · right; exact ⟨by omega, strLe_trans h₁s h₂s⟩

/-- The ranking order is antisymmetric. -/
theorem resLe_antisymm {a b : String × Nat} (h₁ : resLe a b) (h₂ : resLe b a) :
    a = b := by
  rw [resLe_iff] at h₁ h₂
  rcases h₁ with h₁ | ⟨h₁e, h₁s⟩
  · rcases h₂ with h₂ | ⟨h₂e, h₂s⟩
    · omega
    · omega
  · rcases h₂ with h₂ | ⟨h₂e, h₂s⟩
    · omega
    · exact Prod.ext (strLe_antisymm h₁s h₂s) h₁e

/-- The ranking order implies count-descending. -/
theorem resLe_snd_le {a b : String × Nat} (h : resLe a b) : b.2 ≤ a.2 := by
  rw [resLe_iff] at h
  rcases h with h | ⟨h, _⟩ <;> omega

/-- The selector's sort is sorted under the ranking order. -/
theorem sortCounts_sorted (m : List (String × Nat)) :
    List.Sorted resLe (List.insertionSort resLe m) := by
  haveI : IsTotal (String × Nat) resLe := ⟨resLe_total⟩
  haveI : IsTrans (String × Nat) resLe := ⟨fun _ _ _ => resLe_trans⟩
  exact List.sorted_insertionSort resLe m

/-- The Top-K output is sorted under the ranking order. -/
theorem topK_sorted (m : List (String × Nat)) (n : Nat) :
    List.Pairwise resLe (topK m n) :=
  List.Pairwise.sublist (List.take_sublist n _) (sortCounts_sorted m)

/-- Every Top-K entry comes from the count mapping. -/
theorem topK_subset {m : List (String × Nat)} {n : Nat} {e : String × Nat}
    (h : e ∈ topK m n) : e ∈ m :=
  (List.perm_insertionSort resLe m).mem_iff.mp (List.mem_of_mem_take h)

/-- The selector is a function of the count mapping's entries only: permuted
mappings select identically. -/
theorem topK_congr {m₁ m₂ : List (String × Nat)} (h : m₁.Perm m₂) (n : Nat) :
    topK m₁ n = topK m₂ n := by
  haveI : IsAntisymm (String × Nat) resLe := ⟨fun _ _ => resLe_antisymm⟩
  have hs : List.insertionSort resLe m₁ = List.insertionSort resLe m₂ :=
    List.eq_of_perm_of_sorted
      ((List.perm_insertionSort resLe m₁).trans
        (h.trans (List.perm_insertionSort resLe m₂).symm))
      (sortCounts_sorted m₁) (sortCounts_sorted m₂)
  simp [topK, hs]

/-- The Top-K output length is the minimum of K and the mapping size. -/
theorem length_topK (m : List (String × Nat)) (n : Nat) :
    (topK m n).length = min n m.length := by
  simp [topK, List.length_take, List.length_insertionSort]

/-- When the mapping has at most K entries, every entry is selected. -/
theorem mem_topK_of_le {m : List (String × Nat)} {n : Nat} (h : m.length ≤ n) :
    ∀ e ∈ m, e ∈ topK m n := by
  intro e he
  rw [topK, List.take_of_length_le (by rw [List.length_insertionSort]; exact h)]
  exact (List.perm_insertionSort resLe m).mem_iff.mpr he

/-- A disequality of keys in boolean form. -/
theorem beq_false_of_ne {a b : String} (h : ¬a = b) : (a == b) = false := by
  simp [h]

/-- One bump adds exactly one to the bumped key and nothing elsewhere. -/
theorem cnt_bump (m : List (String × Nat)) (k j : String) :
    cnt (bump m k) j = cnt m j + if j = k then 1 else 0 := by
  induction m with
  | nil =>
    by_cases h : j = k
    · subst h; simp [bump, cnt, List.lookup]
    · simp [bump, cnt, List.lookup, h, beq_false_of_ne h]
  | cons e rest ih =>
    obtain ⟨k₀, c⟩ := e
    by_cases h₀ : k₀ = k
    · subst h₀
      by_cases hj : j = k₀
      · subst hj; simp [bump, cnt, List.lookup]
      · simp [bump, cnt, List.lookup, hj, beq_false_of_ne hj]
    · by_cases hj : j = k₀
      · simp [bump, cnt, List.lookup, h₀, hj]
      · simp only [bump, if_neg h₀]
        simp only [cnt, List.lookup, beq_false_of_ne hj] at ih ⊢
        simp [hj, ih]

/-- Membership in the keys of a bumped mapping. -/
theorem mem_keys_bump {m : List (String × Nat)} {k j : String} :
    j ∈ keysOf (bump m k) ↔ j ∈ keysOf m ∨ j = k := by
  induction m with
  | nil => simp [bump, keysOf]
  | cons e rest ih =>
    obtain ⟨k₀, c⟩ := e
    by_cases h₀ : k₀ = k
    · subst h₀; simp [bump, keysOf]; tauto
    · simp [bump, keysOf, h₀] at ih ⊢; tauto

/-- Bumping preserves distinctness of keys. -/
theorem nodup_keys_bump {m : List (String × Nat)} {k : String}
    (h : (keysOf m).Nodup) : (keysOf (bump m k)).Nodup := by
  induction m with
  | nil => simp [bump, keysOf]
  | cons e rest ih =>
    obtain ⟨k₀, c⟩ := e
    simp only [keysOf, List.map_cons, List.nodup_cons] at h
    by_cases h₀ : k₀ = k
    · simp only [bump, if_pos h₀, keysOf, List.map_cons, List.nodup_cons]
      exact ⟨h.1, h.2⟩
    · simp only [bump, if_neg h₀, keysOf, List.map_cons, List.nodup_cons]
      refine ⟨?_, ih h.2⟩
      intro hc
      rcases (mem_keys_bump).mp hc with hc | hc
      · exact h.1 hc
      · exact h₀ hc

/-- Bumping keeps every count positive. -/
theorem pos_bump {m : List (String × Nat)} {k : String}
    (h : ∀ e ∈ m, 0 < e.2) : ∀ e ∈ bump m k, 0 < e.2 := by
  induction m with
  | nil => simp [bump]
  | cons e₀ rest ih =>
    obtain ⟨k₀, c⟩ := e₀
    by_cases h₀ : k₀ = k
    · simp only [bump, if_pos h₀]
      intro e he
      rcases List.mem_cons.mp he with he | he
      · subst he; simp
      · exact h e (List.mem_cons_of_mem _ he)
    · simp only [bump, if_neg h₀]
      intro e he
      rcases List.mem_cons.mp he with he | he
      · subst he; exact h (k₀, c) (List.mem_cons_self _ _)
      · exact ih (fun e' he' => h e' (List.mem_cons_of_mem _ he')) e he

/-- One bump adds exactly one to the grand total. -/
theorem sumCounts_bump (m : List (String × Nat)) (k : String) :
    sumCounts (bump m k) = sumCounts m + 1 := by
  induction m with
  | nil => simp [bump, sumCounts]
  | cons e rest ih =>
    obtain ⟨k₀, c⟩ := e
    by_cases h₀ : k₀ = k
    · simp [bump, h₀, sumCounts]; omega
    · simp [bump, h₀, sumCounts] at ih ⊢; omega

/-- Folding bumps over a key column counts every occurrence. -/
theorem cnt_foldl_bump (ks : List String) :
    ∀ acc j, cnt (ks.foldl bump acc) j = cnt acc j + ks.count j := by
  induction ks with
  | nil => intro acc j; simp
  | cons k ks ih =>
    intro acc j
    rw [List.foldl_cons, ih, cnt_bump, List.count_cons]
    by_cases h : j = k
    · subst h; simp; omega
    · simp [h, beq_false_of_ne h, Ne.symm h]

/-- Keys after folding bumps are the old keys plus the column's keys. -/
theorem mem_keys_foldl_bump (ks : List String) :
    ∀ acc j, j ∈ keysOf (ks.foldl bump acc) ↔ j ∈ keysOf acc ∨ j ∈ ks := by
  induction ks with
  | nil => intro acc j; simp
  | cons k ks ih =>
    intro acc j
    rw [List.foldl_cons, ih]
    rw [mem_keys_bump]
    simp [List.mem_cons]
    tauto

/-- Folding bumps preserves distinctness of keys. -/
theorem nodup_keys_foldl_bump (ks : List String) :
    ∀ acc, (keysOf acc).Nodup → (keysOf (ks.foldl bump acc)).Nodup := by
  induction ks with
  | nil => intro acc h; exact h
  | cons k ks ih =>
    intro acc h
    exact ih _ (nodup_keys_bump h)

/-- Folding bumps keeps every count positive. -/
theorem pos_foldl_bump (ks : List String) :
    ∀ acc, (∀ e ∈ acc, 0 < e.2) → ∀ e ∈ ks.foldl bump acc, 0 < e.2 := by
  induction ks with
  | nil => intro acc h; exact h
  | cons k ks ih =>
    intro acc h
    exact ih _ (pos_bump h)

/-- Folding bumps adds the column's length to the grand total. -/
theorem sumCounts_foldl_bump (ks : List String) :
    ∀ acc, sumCounts (ks.foldl bump acc) = sumCounts acc + ks.length := by
  induction ks with
  | nil => intro acc; simp
  | cons k ks ih =>
    intro acc
    rw [List.foldl_cons, ih, sumCounts_bump]
    simp; omega

/-- The streaming count of a key equals its number of occurrences in the key
column. -/
theorem cnt_streamCounts (ks : List String) (j : String) :
    cnt (streamCounts ks) j = ks.count j := by
  rw [streamCounts, cnt_foldl_bump]
  simp [cnt]

/-- The streaming mapping's keys are exactly the column's keys. -/
theorem mem_keys_streamCounts {ks : List String} {j : String} :
    j ∈ keysOf (streamCounts ks) ↔ j ∈ ks := by
  rw [streamCounts, mem_keys_foldl_bump]
  simp [keysOf]

/-- The streaming mapping has distinct keys. -/
theorem nodup_keys_streamCounts (ks : List String) :
    (keysOf (streamCounts ks)).Nodup := by
  rw [streamCounts]
  exact nodup_keys_foldl_bump ks [] (by simp [keysOf])

/-- The streaming mapping's counts are positive. -/
theorem pos_streamCounts (ks : List String) : ∀ e ∈ streamCounts ks, 0 < e.2 := by
  rw [streamCounts]
  exact pos_foldl_bump ks [] (by simp)

/-- The streaming mapping's grand total is the column length. -/
theorem sumCounts_streamCounts (ks : List String) :
    sumCounts (streamCounts ks) = ks.length := by
  rw [streamCounts, sumCounts_foldl_bump]
  simp [sumCounts]

/-- A successful lookup locates an actual entry. -/
theorem lookup_mem {m : List (String × Nat)} {k : String} {c : Nat}
    (h : m.lookup k = some c) : (k, c) ∈ m := by
  induction m with
  | nil => simp [List.lookup] at h
  | cons e rest ih =>
    obtain ⟨k₀, c₀⟩ := e
    by_cases h₀ : k₀ = k
    · subst h₀
      simp [List.lookup] at h
      subst h
      exact List.mem_cons_self _ _
    · simp [List.lookup, beq_false_of_ne (fun he => h₀ he.symm)] at h
      exact List.mem_cons_of_mem _ (ih h)

/-- A present key looks up to some count. -/
theorem mem_keys_exists_lookup {m : List (String × Nat)} {k : String}
    (h : k ∈ keysOf m) : ∃ c, m.lookup k = some c := by
  induction m with
  | nil => simp [keysOf] at h
  | cons e rest ih =>
    obtain ⟨k₀, c₀⟩ := e
    by_cases h₀ : k₀ = k
    · subst h₀; exact ⟨c₀, by simp [List.lookup]⟩
    · simp [keysOf, Ne.symm h₀] at h
      rcases ih (by simp [keysOf, h]) with ⟨c, hc⟩
      exact ⟨c, by simp [List.lookup, beq_false_of_ne (fun he => h₀ he.symm), hc]⟩

/-- Under distinct keys, every entry is found by lookup. -/
theorem lookup_of_mem_nodup {m : List (String × Nat)}
    (hn : (keysOf m).Nodup) {k : String} {c : Nat} (h : (k, c) ∈ m) :
    m.lookup k = some c := by
  induction m with
  | nil => simp at h
  | cons e rest ih =>
    obtain ⟨k₀, c₀⟩ := e
    simp only [keysOf, List.map_cons, List.nodup_cons] at hn
    rcases List.mem_cons.mp h with h₁ | h₂
    · obtain ⟨hk, hc⟩ := Prod.mk.injEq .. ▸ h₁
      subst hk; subst hc
      simp [List.lookup]
    · have hk : ¬k = k₀ := by
        intro he
        subst he
        exact hn.1 (List.mem_map.mpr ⟨(k, c), h₂, rfl⟩)
      simp [List.lookup, beq_false_of_ne hk]
      exact ih hn.2 h₂

/-- Entry characterization of the streaming mapping. -/
theorem mem_streamCounts_iff {ks : List String} {e : String × Nat} :
    e ∈ streamCounts ks ↔ e.1 ∈ ks ∧ e.2 = ks.count e.1 := by
  obtain ⟨a, b⟩ := e
  constructor
  · intro h
    have hk : a ∈ keysOf (streamCounts ks) :=
      List.mem_map.mpr ⟨(a, b), h, rfl⟩
    have hc : cnt (streamCounts ks) a = b := by
      simp [cnt, lookup_of_mem_nodup (nodup_keys_streamCounts ks) h]
    refine ⟨mem_keys_streamCounts.mp hk, ?_⟩
    show b = ks.count a
    rw [← hc, cnt_streamCounts]
  · rintro ⟨hm, hb⟩
    have hm₂ : a ∈ ks := hm
    have hb₂ : b = ks.count a := hb
    have hk : a ∈ keysOf (streamCounts ks) := mem_keys_streamCounts.mpr hm₂
    rcases mem_keys_exists_lookup hk with ⟨c, hc⟩
    have hcc : cnt (streamCounts ks) a = c := by simp [cnt, hc]
    rw [cnt_streamCounts] at hcc
    have hb' : b = c := by rw [hb₂, hcc]
    subst hb'
    exact lookup_mem hc

/-- The bulk mapping's keys are the deduplicated column. -/
theorem keysOf_bulkCounts (ks : List String) :
    keysOf (bulkCounts ks) = ks.dedup := by
  simp only [bulkCounts, keysOf, List.map_map]
  generalize ks.dedup = l
  induction l with
  | nil => rfl
  | cons a l ih => simp [ih]

/-- Entry characterization of the bulk mapping. -/
theorem mem_bulkCounts_iff {ks : List String} {e : String × Nat} :
    e ∈ bulkCounts ks ↔ e.1 ∈ ks ∧ e.2 = ks.count e.1 := by
  obtain ⟨a, b⟩ := e
  simp only [bulkCounts, List.mem_map, List.mem_dedup]
  constructor
  · rintro ⟨k, hk, he⟩
    obtain ⟨h1, h2⟩ := Prod.mk.injEq .. ▸ he
    subst h1; subst h2
    exact ⟨hk, rfl⟩
  · rintro ⟨hm, hb⟩
    exact ⟨a, hm, by rw [hb]⟩

/-- A mapping with distinct keys has distinct entries. -/
theorem nodup_entries_of_nodup_keys {m : List (String × Nat)}
    (h : (keysOf m).Nodup) : m.Nodup :=
  List.Nodup.of_map Prod.fst h

/-- The streaming and bulk mappings hold the same entries. -/
theorem streamCounts_perm_bulkCounts (ks : List String) :
    (streamCounts ks).Perm (bulkCounts ks) := by
  rw [List.perm_ext_iff_of_nodup
    (nodup_entries_of_nodup_keys (nodup_keys_streamCounts ks))
    (nodup_entries_of_nodup_keys (by rw [keysOf_bulkCounts]; exact List.nodup_dedup ks))]
  intro e
  rw [mem_streamCounts_iff, mem_bulkCounts_iff]

/-- The engine's central selector equivalence: Top-K of the streaming and
bulk mappings of one key column agree. -/
theorem topK_stream_eq_bulk (ks : List String) (n : Nat) :
    topK (streamCounts ks) n = topK (bulkCounts ks) n :=
  topK_congr (streamCounts_perm_bulkCounts ks) n

/-- The representative author is the same under the streaming and bulk
mappings of one author column. -/
theorem repAuthor_stream_eq_bulk (ks : List String) :
    repAuthor (streamCounts ks) = repAuthor (bulkCounts ks) := by
  rw [repAuthor, repAuthor, topK_stream_eq_bulk]

/-- The streaming date-activity fold accumulates the totals counter over the
date column. -/
theorem foldl_ingest_totals (rs : List Record) :
    ∀ st : DateAgg, (rs.foldl ingestQ1 st).totals = (datesCol rs).foldl bump st.totals := by
  induction rs with
  | nil => intro st; rfl
  | cons r rs ih =>
    intro st
    cases hk : q1Key r with
    | none =>
      rw [List.foldl_cons]
      simp only [ingestQ1, hk]
      rw [ih]
      simp [datesCol, q1Pairs, List.filterMap_cons, hk]
    | some p =>
      obtain ⟨d, a⟩ := p
      rw [List.foldl_cons]
      simp only [ingestQ1, hk]
      rw [ih]
      simp [datesCol, q1Pairs, List.filterMap_cons, hk]

/-- The streaming totals counter at end-of-stream is the streaming count
mapping of the date column. -/
theorem q1_totals_eq (rs : List Record) :
    (q1StreamState rs).totals = streamCounts (datesCol rs) := by
  rw [q1StreamState, foldl_ingest_totals]
  rfl

/-- A nested bump touches exactly the bumped date's inner counter. -/
theorem innerOf_bumpNested (m : List (String × List (String × Nat))) (d a e : String) :
    innerOf (bumpNested m d a) e = if e = d then bump (innerOf m e) a else innerOf m e := by
  induction m with
  | nil =>
    by_cases h : e = d
    · subst h; simp [bumpNested, innerOf, List.lookup, bump]
    · simp [bumpNested, innerOf, List.lookup, h, beq_false_of_ne h]
  | cons p rest ih =>
    obtain ⟨d₀, inner⟩ := p
    by_cases h₀ : d₀ = d
    · subst h₀
      by_cases he : e = d₀
      · subst he; simp [bumpNested, innerOf, List.lookup]
      · simp [bumpNested, innerOf, List.lookup, he, beq_false_of_ne he]
    · by_cases he : e = d₀
      · have hed : ¬e = d := fun h => h₀ (he.symm.trans h)
        simp [bumpNested, h₀, innerOf, List.lookup, he, hed]
      · simp only [bumpNested, if_neg h₀]
        simp only [innerOf, List.lookup, beq_false_of_ne he] at ih ⊢
        exact ih

/-- The streaming date-activity fold accumulates each date's author counter
over that date's author column. -/
theorem foldl_ingest_inner (rs : List Record) :
    ∀ (st : DateAgg) (d : String),
      innerOf (rs.foldl ingestQ1 st).byAuthor d =
        (authorsOn d rs).foldl bump (innerOf st.byAuthor d) := by
  induction rs with
  | nil => intro st d; rfl
  | cons r rs ih =>
    intro st d
    cases hk : q1Key r with
    | none =>
      rw [List.foldl_cons]
      simp only [ingestQ1, hk]
      rw [ih]
      simp [authorsOn, q1Pairs, List.filterMap_cons, hk]
    | some p =>
      obtain ⟨d₀, a⟩ := p
      rw [List.foldl_cons]
      simp only [ingestQ1, hk]
      rw [ih]
      by_cases hd : d₀ = d
      · subst hd
        simp [authorsOn, q1Pairs, List.filterMap_cons, hk, innerOf_bumpNested]
      · have hdd : ¬d = d₀ := fun h => hd h.symm
        simp [authorsOn, q1Pairs, List.filterMap_cons, hk, innerOf_bumpNested, hd, hdd]

/-- Each date's streaming author counter at end-of-stream is the streaming
count mapping of that date's author column. -/
theorem q1_inner_eq (rs : List Record) (d : String) :
    innerOf (q1StreamState rs).byAuthor d = streamCounts (authorsOn d rs) := by
  rw [q1StreamState, foldl_ingest_inner]
  rfl

/-- Feeding a per-record extraction into the counter record by record equals
feeding the flattened column. -/
theorem foldl_extract_eq_flat (f : Record → List String) (rs : List Record) :
    ∀ acc, rs.foldl (fun st r => (f r).foldl bump st) acc = (rs.flatMap f).foldl bump acc := by
  induction rs with
  | nil => intro acc; rfl
  | cons r rs ih =>
    intro acc
    rw [List.foldl_cons, ih, List.flatMap_cons, List.foldl_append]

/-- The streaming emoji counter at end-of-stream is the streaming count
mapping of the symbol column. -/
theorem q2StreamState_eq (rs : List Record) :
    q2StreamState rs = streamCounts (symsCol rs) := by
  rw [q2StreamState, symsCol, foldl_extract_eq_flat]
  rfl

/-- The streaming mention counter at end-of-stream is the streaming count
mapping of the handle column. -/
theorem q3StreamState_eq (rs : List Record) :
    q3StreamState rs = streamCounts (mentsCol rs) := by
  rw [q3StreamState, mentsCol, foldl_extract_eq_flat]
  rfl

/-- Streaming and bulk date-activity runs agree on every record stream. -/
theorem q1_runs_equiv (rs : List Record) (n : Nat) :
    q1MemoryRun rs n = q1TimeRun rs n := by
  rw [q1MemoryRun, q1TimeRun, q1_totals_eq, topK_stream_eq_bulk]
  congr 1
  funext e
  rw [q1_inner_eq, repAuthor_stream_eq_bulk]

/-- Streaming and bulk emoji runs agree on every record stream. -/
theorem q2_runs_equiv (rs : List Record) (n : Nat) :
    q2MemoryRun rs n = q2TimeRun rs n := by
  rw [q2MemoryRun, q2TimeRun, q2StreamState_eq, topK_stream_eq_bulk]

/-- Streaming and bulk mention runs agree on every record stream. -/
theorem q3_runs_equiv (rs : List Record) (n : Nat) :
    q3MemoryRun rs n = q3TimeRun rs n := by
  rw [q3MemoryRun, q3TimeRun, q3StreamState_eq, topK_stream_eq_bulk]

/-- Public equivalence of the two date-activity functions, including the
error cases. -/
theorem q1_equiv (input : SourceInput) (n : Int) :
    q1_memory input n = q1_time input n := by
  by_cases hn : n ≤ 0
  · simp [q1_memory, q1_time, hn]
  · cases input with
    | none => simp [q1_memory, q1_time, hn]
    | some f => simp [q1_memory, q1_time, hn, q1_runs_equiv]

/-- Public equivalence of the two emoji functions, including the error
cases. -/
theorem q2_equiv (input : SourceInput) (n : Int) :
    q2_memory input n = q2_time input n := by
  by_cases hn : n ≤ 0
  · simp [q2_memory, q2_time, hn]
  · cases input with
    | none => simp [q2_memory, q2_time, hn]
    | some f => simp [q2_memory, q2_time, hn, q2_runs_equiv]

/-- Public equivalence of the two mention functions, including the error
cases. -/
theorem q3_equiv (input : SourceInput) (n : Int) :
    q3_memory input n = q3_time input n := by
  by_cases hn : n ≤ 0
  · simp [q3_memory, q3_time, hn]
  · cases input with
    | none => simp [q3_memory, q3_time, hn]
    | some f => simp [q3_memory, q3_time, hn, q3_runs_equiv]

/-- The Top-K output is in descending count order. -/
theorem topK_counts_desc (m : List (String × Nat)) (n : Nat) :
    List.Pairwise (fun a b => b.2 ≤ a.2) (topK m n) :=
  (topK_sorted m n).imp (fun h => resLe_snd_le h)

/-- Every entry surviving the date-activity Top-K carries its date's
end-of-stream total. -/
theorem topK_totals_count {rs : List Record} {n : Nat} {e : String × Nat}
    (h : e ∈ topK (q1StreamState rs).totals n) : e.2 = dateTotal rs e.1 := by
  obtain ⟨a, b⟩ := e
  have hm : (a, b) ∈ (q1StreamState rs).totals := topK_subset h
  have hl : (q1StreamState rs).totals.lookup a = some b :=
    lookup_of_mem_nodup (by rw [q1_totals_eq]; exact nodup_keys_streamCounts _) hm
  show b = dateTotal rs a
  rw [dateTotal, cnt, hl]
  rfl

/-- The streaming date-activity result is ranked by descending date
total. -/
theorem q1MemoryRun_ranked (rs : List Record) (n : Nat) :
    List.Pairwise (fun p q => dateTotal rs q.1 ≤ dateTotal rs p.1) (q1MemoryRun rs n) := by
  rw [q1MemoryRun, List.pairwise_map]
  refine (topK_sorted (q1StreamState rs).totals n).imp_of_mem ?_
  intro a b ha hb hr
  show dateTotal rs b.1 ≤ dateTotal rs a.1
  rw [← topK_totals_count ha, ← topK_totals_count hb]
  exact resLe_snd_le hr

/-- The representative author attains the maximal count of a finished author
counter with distinct keys. -/
theorem repAuthor_max (m : List (String × Nat)) (hn : (keysOf m).Nodup) (a : String) :
    cnt m a ≤ cnt m (repAuthor m) := by
  cases hsl : List.insertionSort resLe m with
  | nil =>
    have hm : m = [] := by
      have hperm := (List.perm_insertionSort resLe m).symm
      rw [hsl] at hperm
      exact List.Perm.eq_nil hperm
    subst hm
    simp [cnt]
  | cons e₀ tail =>
    have hrep : repAuthor m = e₀.1 := by
      rw [repAuthor, topK, hsl]
      rfl
    have hmem : e₀ ∈ m :=
      (List.perm_insertionSort resLe m).mem_iff.mp (by rw [hsl]; exact List.mem_cons_self _ _)
    have hcm : cnt m e₀.1 = e₀.2 := by
      obtain ⟨x, y⟩ := e₀
      simp [cnt, lookup_of_mem_nodup hn hmem]
    rw [hrep, hcm]
    by_cases hak : a ∈ keysOf m
    · rcases mem_keys_exists_lookup hak with ⟨c, hc⟩
      have hmem₂ : (a, c) ∈ m := lookup_mem hc
      have hca : cnt m a = c := by simp [cnt, hc]
      rw [hca]
      have hsort : (a, c) ∈ List.insertionSort resLe m :=
        (List.perm_insertionSort resLe m).mem_iff.mpr hmem₂
      rw [hsl] at hsort
      rcases List.mem_cons.mp hsort with hh | hh
      · exact Nat.le_of_eq (congrArg Prod.snd hh)
      · have hp := sortCounts_sorted m
        rw [hsl] at hp
        exact resLe_snd_le (List.rel_of_pairwise_cons hp hh)
    · have : m.lookup a = none := by
        cases hla : m.lookup a with
        | none => rfl
        | some c => exact absurd (List.mem_map.mpr ⟨(a, c), lookup_mem hla, rfl⟩) hak
      simp [cnt, this]

/-- Author maximality of the streaming date-activity result: each returned
pair's author has the maximal sub-count on its date. -/
theorem q1MemoryRun_author_max {rs : List Record} {n : Nat} {p : String × String}
    (hp : p ∈ q1MemoryRun rs n) (a : String) :
    authorSub rs p.1 a ≤ authorSub rs p.1 p.2 := by
  rw [q1MemoryRun] at hp
  rcases List.mem_map.mp hp with ⟨e, he, hpe⟩
  subst hpe
  show cnt (innerOf (q1StreamState rs).byAuthor e.1) a ≤
    cnt (innerOf (q1StreamState rs).byAuthor e.1)
      (repAuthor (innerOf (q1StreamState rs).byAuthor e.1))
  refine repAuthor_max _ ?_ a
  rw [q1_inner_eq]
  exact nodup_keys_streamCounts _

/-- The date-activity key determines the record's date. -/
theorem dateOf_of_q1Key {r : Record} {d a : String} (h : q1Key r = some (d, a)) :
    dateOf r = some d := by
  rw [q1Key] at h
  cases hts : r.timestamp with
  | none => rw [hts] at h; simp at h
  | some ts =>
    cases hau : r.author with
    | none => rw [hts, hau] at h; simp at h
    | some au =>
      rw [hts, hau] at h
      simp only [Option.map_eq_some'] at h
      rcases h with ⟨x, hx, hxe⟩
      obtain ⟨h₁, h₂⟩ := Prod.mk.injEq .. ▸ hxe
      subst h₁
      rw [dateOf, hts]
      exact hx

/-- A date's occurrences in the date column are its author column's
length. -/
theorem count_datesCol (rs : List Record) (d : String) :
    (datesCol rs).count d = (authorsOn d rs).length := by
  rw [datesCol, authorsOn, List.length_map]
  generalize q1Pairs rs = l
  induction l with
  | nil => rfl
  | cons p l ih =>
    rw [List.map_cons, List.count_cons, List.filter_cons]
    by_cases h : p.1 = d
    · simp [h, ih]
    · simp [h, beq_false_of_ne (fun he => h he.symm), ih]

/-- A date's occurrences in the date column are bounded by the records
bearing that date. -/
theorem count_datesCol_le_bearing (rs : List Record) (d : String) :
    (datesCol rs).count d ≤ bearingCount rs d := by
  induction rs with
  | nil => simp [datesCol, q1Pairs, bearingCount]
  | cons r rs ih =>
    have ih₂ : (datesCol rs).count d ≤ rs.countP (fun r => decide (dateOf r = some d)) := ih
    rw [bearingCount, List.countP_cons]
    cases hk : q1Key r with
    | none =>
      have hd : datesCol (r :: rs) = datesCol rs := by
        simp [datesCol, q1Pairs, List.filterMap_cons, hk]
      rw [hd]
      omega
    | some p =>
      obtain ⟨d₀, a⟩ := p
      have hd : datesCol (r :: rs) = d₀ :: datesCol rs := by
        simp [datesCol, q1Pairs, List.filterMap_cons, hk]
      rw [hd, List.count_cons]
      by_cases h : d = d₀
      · have hdo : dateOf r = some d := by rw [h]; exact dateOf_of_q1Key hk
        rw [if_pos (by simp [h]), if_pos (by simp [hdo])]
        omega
      · rw [if_neg (by simp [Ne.symm h])]
        omega

/-- A nodup positive mapping has exactly its length many distinct non-zero
keys. -/
theorem distinctNonzeroKeys_eq {m : List (String × Nat)}
    (hn : (keysOf m).Nodup) (hp : ∀ e ∈ m, 0 < e.2) :
    distinctNonzeroKeys m = m.length := by
  rw [distinctNonzeroKeys]
  have hf : m.filter (fun e => decide (0 < e.2)) = m :=
    List.filter_eq_self.mpr (fun e he => by simp [hp e he])
  have hn₂ : (List.map Prod.fst m).Nodup := hn
  rw [hf, List.dedup_eq_self.mpr hn₂, List.length_map]

/-- C1: for every input file and every N, the memory-optimized streaming
strategy (q1_memory, q2_memory, q3_memory) and the time-optimized bulk
strategy (q1_time, q2_time, q3_time) return identical ranked result lists
for each of the three aggregates. -/
theorem claim_C1_strategy_equivalence (input : SourceInput) (n : Int) :
    q1_memory input n = q1_time input n ∧
    q2_memory input n = q2_time input n ∧
    q3_memory input n = q3_time input n :=
  ⟨q1_equiv input n, q2_equiv input n, q3_equiv input n⟩

/-- C2: the date-activity aggregate ranks dates by total post count
descending and pairs each date with a maximal per-(date, author) sub-count
author; for three records dated 2021-02-12 with authors A (twice) and
B (once), the aggregate with N = 1 returns [("2021-02-12", "A")] and the
date's total is 3. -/
theorem claim_C2_date_activity :
    (∀ (rs : List Record) (n : Nat),
      List.Pairwise (fun p q => dateTotal rs q.1 ≤ dateTotal rs p.1) (q1MemoryRun rs n)) ∧
    (∀ (rs : List Record) (n : Nat), ∀ p ∈ q1MemoryRun rs n, ∀ a : String,
      authorSub rs p.1 a ≤ authorSub rs p.1 p.2) ∧
    q1_memory (some fileQ1Scenario) 1 = .ok [("2021-02-12", "A")] ∧
    dateTotal (recordsOf fileQ1Scenario) "2021-02-12" = 3 :=
  ⟨q1MemoryRun_ranked, fun _ _ _ hp a => q1MemoryRun_author_max hp a, rfl, by decide⟩

/-- C2 witness: in the concrete scenario, ("2021-02-12", "A") is in the
result and A's sub-count dominates B's. -/
theorem claim_C2_witness :
    ("2021-02-12", "A") ∈ q1MemoryRun (recordsOf fileQ1Scenario) 1 ∧
    authorSub (recordsOf fileQ1Scenario) "2021-02-12" "B" ≤
      authorSub (recordsOf fileQ1Scenario) "2021-02-12" "A" :=
  ⟨by decide,
    claim_C2_date_activity.2.1 (recordsOf fileQ1Scenario) 1
      ("2021-02-12", "A") (by decide) "B"⟩

/-- C3: the emoji aggregate counts each pictographic code point once per
occurrence in the text; records with missing or empty text contribute
nothing; a symbol repeated three times in one post adds three; for texts
"🙏 good", "🙏🙏", "😂" the aggregate with N = 2 returns
[("🙏", 3), ("😂", 1)]. -/
theorem claim_C3_emoji_counting (rs : List Record) (s : String)
    (ts au : Option String) (ms : Option (List Mention)) :
    cnt (q2StreamState rs) s = (symsCol rs).count s ∧
    symbolsOf { timestamp := ts, author := au, text := none, mentions := ms } = [] ∧
    symbolsOf { timestamp := ts, author := au, text := some "", mentions := ms } = [] ∧
    (symbolsOf (recText "🙏🙏🙏")).count "🙏" = 3 ∧
    q2_memory (some fileQ2Scenario) 2 = .ok [("🙏", 3), ("😂", 1)] := by
  refine ⟨?_, rfl, rfl, by decide, rfl⟩
  rw [q2StreamState_eq, cnt_streamCounts]

/-- C4: the mention aggregate increments each handle once per element of the
record's mentions list, reading only the username field; absent or empty
mentions contribute nothing; for mention lists ["x","y"], ["x"], [] the
aggregate with N = 1 returns [("x", 2)]. -/
theorem claim_C4_mention_counting (rs : List Record) (h : String)
    (ml : List Mention) (ts au tx : Option String) :
    cnt (q3StreamState rs) h = (mentsCol rs).count h ∧
    mentionsOf { timestamp := ts, author := au, text := tx, mentions := some ml } =
      ml.map Mention.username ∧
    mentionsOf { timestamp := ts, author := au, text := tx, mentions := none } = [] ∧
    q3_memory (some fileQ3Scenario) 1 = .ok [("x", 2)] := by
  refine ⟨?_, rfl, rfl, rfl⟩
  rw [q3StreamState_eq, cnt_streamCounts]

/-- C5: for every finished count mapping (distinct keys, positive counts)
and every valid N, the Top-K result has length exactly
min(N, number of distinct non-zero keys); when fewer than N distinct keys
exist, all of them are returned. -/
theorem claim_C5_topK_size (m : List (String × Nat)) (n : Nat)
    (hkeys : (keysOf m).Nodup) (hpos : ∀ e ∈ m, 0 < e.2) (hn : 0 < n) :
    (topK m n).length = min n (distinctNonzeroKeys m) ∧
    (distinctNonzeroKeys m ≤ n → ∀ e ∈ m, e ∈ topK m n) := by
  rw [distinctNonzeroKeys_eq hkeys hpos]
  exact ⟨length_topK m n, fun hle => mem_topK_of_le hle⟩

/-- C5 witness: a two-entry mapping with N = 5 returns both entries. -/
theorem claim_C5_witness :
    (topK [("a", 2), ("b", 1)] 5).length =
      min 5 (distinctNonzeroKeys [("a", 2), ("b", 1)]) :=
  (claim_C5_topK_size [("a", 2), ("b", 1)] 5 (by decide) (by decide) (by decide)).1

/-- C6 counterexample: two input files whose 2021-02-12 totals differ (3
vs. 1) produce identical date-activity results for N = 1, so the returned
elements cannot carry the date's count — the result is merely (date,
author) pairs. -/
theorem claim_C6_counterexample :
    q1_memory (some fileQ1Scenario) 1 = q1_memory (some fileQ1Single) 1 ∧
    dateTotal (recordsOf fileQ1Scenario) "2021-02-12" = 3 ∧
    dateTotal (recordsOf fileQ1Single) "2021-02-12" = 1 :=
  ⟨rfl, by decide, by decide⟩

/-- C6 (amended): each aggregate's ranked result has length at most N; the
emoji and mention results are (key, count) pairs in descending count
order; the date-activity result is ranked by descending date total but its
elements are (date, representative-author) pairs that do not include the
count. -/
theorem claim_C6_ranked_results (rs : List Record) (n : Nat) :
    (q1MemoryRun rs n).length ≤ n ∧
    (q2MemoryRun rs n).length ≤ n ∧
    (q3MemoryRun rs n).length ≤ n ∧
    List.Pairwise (fun a b => b.2 ≤ a.2) (q2MemoryRun rs n) ∧
    List.Pairwise (fun a b => b.2 ≤ a.2) (q3MemoryRun rs n) ∧
    List.Pairwise (fun p q => dateTotal rs q.1 ≤ dateTotal rs p.1) (q1MemoryRun rs n) ∧
    q1MemoryRun rs n =
      (topK (q1StreamState rs).totals n).map
        (fun e => (e.1, repAuthor (innerOf (q1StreamState rs).byAuthor e.1))) := by
  refine ⟨?_, ?_, ?_, topK_counts_desc _ n, topK_counts_desc _ n,
    q1MemoryRun_ranked rs n, rfl⟩
  · rw [q1MemoryRun, List.length_map, length_topK]
    omega
  · rw [q2MemoryRun, length_topK]
    omega
  · rw [q3MemoryRun, length_topK]
    omega

/-- C7: at end-of-stream, every date's total equals the sum of its
per-author sub-counts and never exceeds the number of input records bearing
that date. -/
theorem claim_C7_total_invariant (rs : List Record) (d : String) :
    dateTotal rs d = sumCounts (innerOf (q1StreamState rs).byAuthor d) ∧
    dateTotal rs d ≤ bearingCount rs d := by
  constructor
  · rw [dateTotal, q1_totals_eq, cnt_streamCounts, q1_inner_eq,
      sumCounts_streamCounts, count_datesCol]
  · rw [dateTotal, q1_totals_eq, cnt_streamCounts]
    exact count_datesCol_le_bearing rs d

/-- C8: for every N ≤ 0, every public aggregate function of both strategies
fails with InvalidParameter, rejected before the scan and returning no
partial result. -/
theorem claim_C8_invalid_parameter (input : SourceInput) (n : Int) (hn : n ≤ 0) :
    q1_memory input n = .error .invalidParameter ∧
    q1_time input n = .error .invalidParameter ∧
    q2_memory input n = .error .invalidParameter ∧
    q2_time input n = .error .invalidParameter ∧
    q3_memory input n = .error .invalidParameter ∧
    q3_time input n = .error .invalidParameter := by
  simp [q1_memory, q1_time, q2_memory, q2_time, q3_memory, q3_time, hn]

/-- C8 witness: N = 0 on a concrete file is rejected. -/
theorem claim_C8_witness :
    (0 : Int) ≤ 0 ∧
    q1_memory (some fileQ1Scenario) 0 = .error .invalidParameter :=
  ⟨by decide, (claim_C8_invalid_parameter (some fileQ1Scenario) 0 (by decide)).1⟩

/-- C9: for a zero-byte input file and any valid N, all three aggregates
under both strategies return an empty result list and no error. -/
theorem claim_C9_empty_input (n : Int) (hn : 0 < n) :
    q1_memory (some []) n = .ok [] ∧ q1_time (some []) n = .ok [] ∧
    q2_memory (some []) n = .ok [] ∧ q2_time (some []) n = .ok [] ∧
    q3_memory (some []) n = .ok [] ∧ q3_time (some []) n = .ok [] := by
  have hn₂ : ¬n ≤ 0 := by omega
  refine ⟨?_, ?_, ?_, ?_, ?_, ?_⟩ <;>
    simp [q1_memory, q1_time, q2_memory, q2_time, q3_memory, q3_time, hn₂,
      recordsOf, q1MemoryRun, q1TimeRun, q2MemoryRun, q2TimeRun, q3MemoryRun,
      q3TimeRun, q1StreamState, q2StreamState, q3StreamState, topK, datesCol,
      symsCol, mentsCol, q1Pairs, bulkCounts]

/-- C9 witness: N = 10 on the zero-byte file returns empty results
everywhere. -/
theorem claim_C9_witness :
    (0 : Int) < 10 ∧
    (q1_memory (some []) 10 = .ok [] ∧ q1_time (some []) 10 = .ok [] ∧
     q2_memory (some []) 10 = .ok [] ∧ q2_time (some []) 10 = .ok [] ∧
     q3_memory (some []) 10 = .ok [] ∧ q3_time (some []) 10 = .ok []) :=
  ⟨by decide, claim_C9_empty_input 10 (by decide)⟩

/-- C10: each aggregate is exposed per strategy as a public function taking
(file path, N) and returning the ranked result, with one uniform signature
across strategies: the strategy-indexed functions instantiate to the public
ones, and swapping the strategy argument at any call site yields the same
result. -/
theorem claim_C10_uniform_api (s t : Strategy) (input : SourceInput) (n : Int) :
    q1Run .memory = q1_memory ∧ q1Run .time = q1_time ∧
    q2Run .memory = q2_memory ∧ q2Run .time = q2_time ∧
    q3Run .memory = q3_memory ∧ q3Run .time = q3_time ∧
    q1Run s input n = q1Run t input n ∧
    q2Run s input n = q2Run t input n ∧
    q3Run s input n = q3Run t input n := by
  refine ⟨rfl, rfl, rfl, rfl, rfl, rfl, ?_, ?_, ?_⟩
  · cases s <;> cases t
    · rfl
    · exact q1_equiv input n
    · exact (q1_equiv input n).symm
    · rfl
  · cases s <;> cases t
    · rfl
    · exact q2_equiv input n
    · exact (q2_equiv input n).symm
    · rfl
  · cases s <;> cases t
    · rfl
    · exact q3_equiv input n
    · exact (q3_equiv input n).symm
    · rfl

end DETweets
